import Mathlib

/-!
Verification of `program_synthesis/heuristic_generator.py` (the `HeuristicGenerator`
class of the reef weak-supervision loop).

Modelling conventions.
* Probabilities, marginals, votes and scores are rationals (`ℚ`); the Python code
  computes with floats, but every claim under scrutiny is about exact comparisons
  (`<= >= == 0.5`) and rational arithmetic, which `ℚ` embeds faithfully.
* A data row is an abstract type `α`.  A fitted heuristic is modelled as an opaque
  function `α → ℚ` returning its positive-class probability for a row; this absorbs
  both `predict_proba(...)[:, 1]` and the column restriction `X[:, i]`, which belong
  to the external classifier, not to the generator.
* A vote matrix `L` is stored column-major: one entry of the outer list per
  heuristic (`L[:, i]` in the Python), the inner list running over data rows.
* sklearn's `f1_score` and the Synthesizer's `find_optimal_beta` are external
  collaborators; they are passed in as opaque function parameters.  `f1_score` may
  produce NaN, modelled as `Option ℚ` with `none` for NaN.
* A division whose Python counterpart is a division by zero (NaN / ZeroDivisionError)
  is modelled by `Option ℚ` returning `none`.
-/

/-- Entry-wise model of `np.sign`: -1 on negatives, +1 on positives, 0 at 0. -/
def npSign (x : ℚ) : ℚ :=
  if x < 0 then -1 else if 0 < x then 1 else 0

/-- Model of `np.nan_to_num` on a single score: NaN (`none`) becomes 0. -/
def nanToNum (x : Option ℚ) : ℚ :=
  x.getD 0

/-- One entry of the `labels_cutoff` column built inside `apply_heuristics`:
start from 0, write -1 where `marginals <= b - beta_opt[i]`, then write +1 where
`marginals >= b + beta_opt[i]`.  The second write happens after the first, so on
overlap (possible only when `beta = 0` and `p = b`) the +1 write wins. -/
def labels_cutoff (b beta p : ℚ) : ℚ :=
  let l0 : ℚ := 0
  let l1 := if p ≤ b - beta then -1 else l0
  let l2 := if b + beta ≤ p then 1 else l1
  l2

/-- Model of `HeuristicGenerator.apply_heuristics`: for heuristic `i`, compute its
positive-class probability on every row of `X` and threshold it with `beta_opt[i]`
around the class prior `b`.  Column-major: one column (inner list) per heuristic. -/
def apply_heuristics {α : Type} (b : ℚ) (heuristics : List (α → ℚ)) (X : List α)
    (beta_opt : List ℚ) : List (List ℚ) :=
  heuristics.enum.map (fun ih => (X.map ih.2).map (labels_cutoff b (beta_opt.getD ih.1 0)))

/-- Claim-side characterisation of one vote (for the refinement theorem): the
+1 branch takes precedence, then the -1 branch, else abstain. -/
def voteSpec (b beta p : ℚ) : ℚ :=
  if b + beta ≤ p then 1 else if p ≤ b - beta then -1 else 0

/-- Model of the inner `calculate_jaccard_distance` of `prune_heuristics`:
per candidate column, `1 - sum(min(col, total)) / sum(max(col, total))`.
The all-zero case (0/0, NaN in NumPy) is not reached by any claim; `ℚ` division
by zero yields 0 here. -/
def calculate_jaccard_distance (num_labeled_total : List ℚ) (num_labeled_L : List (List ℚ)) :
    List ℚ :=
  num_labeled_L.map (fun col =>
    1 - (List.zipWith min col num_labeled_total).sum / (List.zipWith max col num_labeled_total).sum)

/-- Model of `np.sum(np.abs(L_val.T), axis=0)`: the per-row total of absolute votes
cast by the previously kept heuristics (columns of `L_val`). -/
def sumAbsVotes (cols : List (List ℚ)) (numRows : ℕ) : List ℚ :=
  cols.foldl (fun acc col => List.zipWith (· + ·) acc (col.map (fun x => |x|)))
    (List.replicate numRows 0)

/-- Ascending comparison used to model `np.argsort`: compare scores, breaking ties
by index.  Baking the index tie-break into the order makes it total and
antisymmetric, so the sorted result is unique; it matches NumPy's behaviour on the
arrays at hand (NumPy falls back to a stable insertion sort on small arrays, and a
forward-stable ascending order is exactly score-then-index order). -/
def rIdx (s : List ℚ) (i j : ℕ) : Prop :=
  s.getD i 0 < s.getD j 0 ∨ (s.getD i 0 = s.getD j 0 ∧ i ≤ j)

instance rIdx.instDecidable (s : List ℚ) : DecidableRel (rIdx s) := fun i j =>
  inferInstanceAs (Decidable (s.getD i 0 < s.getD j 0 ∨ (s.getD i 0 = s.getD j 0 ∧ i ≤ j)))

instance rIdx.instIsTotal (s : List ℚ) : IsTotal ℕ (rIdx s) where
  total i j := by
    rcases lt_trichotomy (s.getD i 0) (s.getD j 0) with h | h | h
    · exact Or.inl (Or.inl h)
    · rcases Nat.le_total i j with hij | hij
      · exact Or.inl (Or.inr ⟨h, hij⟩)
      · exact Or.inr (Or.inr ⟨h.symm, hij⟩)
    · exact Or.inr (Or.inl h)

instance rIdx.instIsTrans (s : List ℚ) : IsTrans ℕ (rIdx s) where
  trans i j k hij hjk := by
    rcases hij with h1 | ⟨e1, le1⟩
    · rcases hjk with h2 | ⟨e2, _⟩
      · exact Or.inl (h1.trans h2)
      · exact Or.inl (e2 ▸ h1)
    · rcases hjk with h2 | ⟨e2, le2⟩
      · exact Or.inl (e1 ▸ h2)
      · exact Or.inr ⟨e1.trans e2, le1.trans le2⟩

instance rIdx.instIsAntisymm (s : List ℚ) : IsAntisymm ℕ (rIdx s) where
  antisymm i j hij hji := by
    rcases hij with h1 | ⟨e1, le1⟩ <;> rcases hji with h2 | ⟨e2, le2⟩
    · exact absurd (h1.trans h2) (lt_irrefl _)
    · exact absurd (e2 ▸ h1) (lt_irrefl _)
    · exact absurd (e1 ▸ h2) (lt_irrefl _)
    · exact Nat.le_antisymm le1 le2

/-- Model of `np.argsort(scores)`: the ascending permutation of `0, ..., n-1`
under `rIdx scores` (score order with index tie-break). -/
def argsortNp (s : List ℚ) : List ℕ :=
  List.insertionSort (rIdx s) (List.range s.length)

/-- Model of `np.argsort(combined_scores)[::-1][0:keep]` in `prune_heuristics`. -/
def pruneSelect (combined : List ℚ) (keep : ℕ) : List ℕ :=
  (argsortNp combined).reverse.take keep

/-- The candidate vote matrix built inside `prune_heuristics`:
`beta_opt = syn.find_optimal_beta(heuristics, val_X, val_ground)` followed by
`L = apply_heuristics(heuristics, val_X, beta_opt)`. -/
def candidateVotes {α : Type} (find_optimal_beta : List (α → ℚ) → List α → List ℚ → List ℚ)
    (b : ℚ) (valX : List α) (val_ground : List ℚ) (heuristics : List (α → ℚ)) :
    List (List ℚ) :=
  apply_heuristics b heuristics valX (find_optimal_beta heuristics valX val_ground)

/-- Model of `acc_cov_scores = np.nan_to_num([f1_score(val_ground, L[:, i], 'micro')])`:
the per-candidate micro-F1 reliability scores with NaN replaced by 0. -/
def reliabilityScores (f1_micro : List ℚ → List ℚ → Option ℚ) (val_ground : List ℚ)
    (L : List (List ℚ)) : List ℚ :=
  (L.map (fun col => f1_micro val_ground col)).map nanToNum

/-- Model of the `jaccard_scores` branch of `prune_heuristics`: with a fitted
aggregator (`vf` holding its stored validation vote matrix `L_val`), Jaccard
diversity against the summed absolute historical votes; on the first round
(`vf = None`), `np.ones` of the reliability-score shape. -/
def diversityScores (vfLVal : Option (List (List ℚ))) (numRows : ℕ) (L : List (List ℚ))
    (n : ℕ) : List ℚ :=
  match vfLVal with
  | some priorLVal =>
      calculate_jaccard_distance (sumAbsVotes priorLVal numRows) (L.map (fun col => col.map (fun x => |x|)))
  | none => List.replicate n 1

/-- Model of `combined_scores = 0.5 * acc_cov_scores + 0.5 * jaccard_scores`. -/
def combinedScores {α : Type} (find_optimal_beta : List (α → ℚ) → List α → List ℚ → List ℚ)
    (f1_micro : List ℚ → List ℚ → Option ℚ) (b : ℚ) (valX : List α) (val_ground : List ℚ)
    (vfLVal : Option (List (List ℚ))) (heuristics : List (α → ℚ)) : List ℚ :=
  let L := candidateVotes find_optimal_beta b valX val_ground heuristics
  let acc_cov_scores := reliabilityScores f1_micro val_ground L
  let jaccard_scores := diversityScores vfLVal valX.length L acc_cov_scores.length
  List.zipWith (fun a j => (1 / 2 : ℚ) * a + (1 / 2 : ℚ) * j) acc_cov_scores jaccard_scores

/-- Model of `HeuristicGenerator.prune_heuristics`: score every candidate and return
`np.argsort(combined_scores)[::-1][0:keep]`. -/
def prune_heuristics {α : Type} (find_optimal_beta : List (α → ℚ) → List α → List ℚ → List ℚ)
    (f1_micro : List ℚ → List ℚ → Option ℚ) (b : ℚ) (valX : List α) (val_ground : List ℚ)
    (vfLVal : Option (List (List ℚ))) (heuristics : List (α → ℚ)) (keep : ℕ) : List ℕ :=
  pruneSelect (combinedScores find_optimal_beta f1_micro b valX val_ground vfLVal heuristics) keep

/-- Per-round external inputs of `run_synthesizer`: the freshly generated candidate
pool (`syn.generate_heuristics`), the aggregator state from prior rounds, and the
external scoring services used this round. -/
structure RoundInput (α F : Type) where
  candidates : List (α → ℚ)
  candCombos : List F
  keep : ℕ
  vfLVal : Option (List (List ℚ))
  find_optimal_beta : List (α → ℚ) → List α → List ℚ → List ℚ
  f1_micro : List ℚ → List ℚ → Option ℚ

/-- The generator state mutated by `run_synthesizer`: cumulative kept heuristics
`self.hf`, their feature combinations `self.feat_combos`, and the vote matrices
recomputed from scratch each round (`self.L_val`, `self.L_train`). -/
structure GenState (α F : Type) where
  hf : List (α → ℚ)
  feat_combos : List F
  LVal : List (List ℚ)
  LTrain : List (List ℚ)

/-- Model of one `run_synthesizer` call: prune the candidate pool, append the
survivors (`self.hf.append(hf[i])` for `i` in `sort_idx`), then recompute a fresh
beta vector and fresh vote matrices over the full cumulative heuristic list. -/
def run_synthesizer {α F : Type} (b : ℚ) (valX trainX : List α) (val_ground : List ℚ)
    (s : GenState α F) (r : RoundInput α F) : GenState α F :=
  let sort_idx := prune_heuristics r.find_optimal_beta r.f1_micro b valX val_ground
    r.vfLVal r.candidates r.keep
  let hf2 := s.hf ++ sort_idx.filterMap (fun i => r.candidates.get? i)
  let fc2 := s.feat_combos ++ sort_idx.filterMap (fun i => r.candCombos.get? i)
  let beta_opt := r.find_optimal_beta hf2 valX val_ground
  { hf := hf2
    feat_combos := fc2
    LVal := apply_heuristics b hf2 valX beta_opt
    LTrain := apply_heuristics b hf2 trainX beta_opt }

/-- A sequence of `run_synthesizer` rounds from an initial generator state. -/
def runRounds {α F : Type} (b : ℚ) (valX trainX : List α) (val_ground : List ℚ)
    (s : GenState α F) (rs : List (RoundInput α F)) : GenState α F :=
  rs.foldl (run_synthesizer b valX trainX val_ground) s

/-- Model of `gamma_optimizer`: `0.5 - 1 / m ** 1.5` for `m = len(self.hf)`. -/
noncomputable def gamma_optimizer (m : ℕ) : ℝ :=
  1 / 2 - 1 / ((m : ℝ) ^ ((3 : ℝ) / 2))

/-- Model of `find_feedback`: ask the aggregator (`vf.find_vague_points`, external)
for vague validation points at margin `gamma_optimizer m`, alias the incorrect set
to the vague set, and store the deduplicated concatenation of the two.  Python's
`list(set(...))` loses ordering; only membership and freedom from duplicates are
meaningful, which `List.dedup` models. -/
noncomputable def find_feedback (m : ℕ) (find_vague_points : ℚ → ℝ → List ℕ) (b : ℚ) :
    List ℕ :=
  let gamma_opt := gamma_optimizer m
  let vague_idx := find_vague_points b gamma_opt
  let incorrect_idx := vague_idx
  (vague_idx ++ incorrect_idx).dedup

/-- Model of the inner `calculate_accuracy` of `evaluate`:
`total = #{marginal != 0.5}`, `labels = sign(2 * (marginals - 0.5))`,
result `sum(labels == ground) / float(total)`.  When `total = 0` the Python
division yields NaN, modelled as `none`. -/
def calculate_accuracy (marginals : List ℚ) (b : ℚ) (ground : List ℚ) : Option ℚ :=
  let total := marginals.countP (fun m => decide (m ≠ 1 / 2))
  let labels := marginals.map (fun m => npSign (2 * (m - 1 / 2)))
  let nMatches := (labels.zip ground).countP (fun p => decide (p.1 = p.2))
  if total = 0 then none else some ((nMatches : ℚ) / (total : ℚ))

/-- Model of the inner `calculate_coverage` of `evaluate`:
`total / float(len(labels))`; an empty marginals vector would divide by zero,
modelled as `none`. -/
def calculate_coverage (marginals : List ℚ) (b : ℚ) (ground : List ℚ) : Option ℚ :=
  let total := marginals.countP (fun m => decide (m ≠ 1 / 2))
  let labels := marginals.map (fun m => npSign (2 * (m - 1 / 2)))
  if labels.length = 0 then none else some ((total : ℚ) / (labels.length : ℚ))

/-- Model of `HeuristicGenerator.evaluate`: the four values in return order
`(val_accuracy, train_accuracy, val_coverage, train_coverage)`. -/
def evaluate (val_marginals train_marginals : List ℚ) (b : ℚ)
    (val_ground train_ground : List ℚ) : Option ℚ × Option ℚ × Option ℚ × Option ℚ :=
  (calculate_accuracy val_marginals b val_ground,
   calculate_accuracy train_marginals b train_ground,
   calculate_coverage val_marginals b val_ground,
   calculate_coverage train_marginals b train_ground)

/-- Spec-side count of covered points: marginals differing from 0.5 exactly. -/
def specCoveredCount (marginals : List ℚ) : ℕ :=
  marginals.countP (fun m => decide (m ≠ 1 / 2))

/-- Spec-side count of covered points whose sign `sign(2 * (marginal - 0.5))`
matches the ground-truth label (accuracy numerator restricted to covered points). -/
def specCoveredMatches (marginals ground : List ℚ) : ℕ :=
  (marginals.zip ground).countP (fun p => decide (p.1 ≠ 1 / 2 ∧ npSign (2 * (p.1 - 1 / 2)) = p.2))

/-! ### Helper lemmas -/

lemma labels_cutoff_eq_voteSpec (b beta p : ℚ) : labels_cutoff b beta p = voteSpec b beta p := rfl

lemma npSign_mem (x : ℚ) : npSign x = -1 ∨ npSign x = 0 ∨ npSign x = 1 := by
  unfold npSign
  split
  · exact Or.inl rfl
  · split
    · exact Or.inr (Or.inr rfl)
    · exact Or.inr (Or.inl rfl)

lemma npSign_zero_iff (x : ℚ) : npSign x = 0 ↔ x = 0 := by
  unfold npSign
  constructor
  · intro h
    split at h
    · exact absurd h (by norm_num)
    · split at h
      · exact absurd h (by norm_num)
      · linarith [le_of_not_lt (by assumption : ¬ x < 0), le_of_not_lt (by assumption : ¬ 0 < x)]
  · intro h
    subst h
    simp

lemma argsortNp_sorted (s : List ℚ) : (argsortNp s).Sorted (rIdx s) :=
  List.sorted_insertionSort (rIdx s) (List.range s.length)

lemma argsortNp_perm (s : List ℚ) : (argsortNp s).Perm (List.range s.length) :=
  List.perm_insertionSort (rIdx s) (List.range s.length)

lemma argsortNp_nodup (s : List ℚ) : (argsortNp s).Nodup :=
  ((argsortNp_perm s).nodup_iff).mpr (List.nodup_range s.length)

lemma argsortNp_mem {s : List ℚ} {i : ℕ} (h : i ∈ argsortNp s) : i < s.length := by
  have := (argsortNp_perm s).mem_iff.mp h
  exact List.mem_range.mp this

lemma argsortNp_length (s : List ℚ) : (argsortNp s).length = s.length :=
  (argsortNp_perm s).length_eq.trans (List.length_range s.length)

lemma pruneSelect_length (c : List ℚ) (keep : ℕ) :
    (pruneSelect c keep).length = min keep c.length := by
  simp [pruneSelect, argsortNp_length]

lemma pruneSelect_nodup (c : List ℚ) (keep : ℕ) : (pruneSelect c keep).Nodup :=
  List.Nodup.sublist (List.take_sublist _ _) (List.nodup_reverse.mpr (argsortNp_nodup c))

lemma pruneSelect_mem {c : List ℚ} {keep i : ℕ} (h : i ∈ pruneSelect c keep) : i < c.length := by
  have h1 : i ∈ (argsortNp c).reverse := (List.take_sublist _ _).mem h
  exact argsortNp_mem (List.mem_reverse.mp h1)

lemma pruneSelect_pairwise (c : List ℚ) (keep : ℕ) :
    (pruneSelect c keep).Pairwise
      (fun i j => c.getD j 0 < c.getD i 0 ∨ (c.getD i 0 = c.getD j 0 ∧ j < i)) := by
  have hs : (argsortNp c).Pairwise (fun i j => rIdx c i j ∧ i ≠ j) :=
    (argsortNp_sorted c).and (argsortNp_nodup c)
  have hr : (argsortNp c).reverse.Pairwise (fun i j => rIdx c j i ∧ j ≠ i) :=
    List.pairwise_reverse.mpr hs
  have ht : (pruneSelect c keep).Pairwise (fun i j => rIdx c j i ∧ j ≠ i) :=
    List.Pairwise.sublist (List.take_sublist _ _) hr
  refine ht.imp ?_
  rintro i j ⟨hij, hne⟩
  rcases hij with h | ⟨he, hle⟩
  · exact Or.inl h
  · exact Or.inr ⟨he.symm, lt_of_le_of_ne hle hne⟩

lemma getD_map_of_lt (g : ℚ → ℚ) {l : List ℚ} {i : ℕ} (h : i < l.length) :
    (l.map g).getD i 0 = g (l.getD i 0) := by
  rw [List.getD_eq_getElem?_getD, List.getD_eq_getElem?_getD, List.getElem?_map,
    List.getElem?_eq_getElem h]
  simp

lemma argsortNp_map (g : ℚ → ℚ) (hlt : ∀ a b : ℚ, g a < g b ↔ a < b)
    (hinj : ∀ a b : ℚ, g a = g b ↔ a = b) (l : List ℚ) :
    argsortNp (l.map g) = argsortNp l := by
  have hlen : (l.map g).length = l.length := List.length_map l g
  have hperm : (argsortNp (l.map g)).Perm (argsortNp l) := by
    refine (argsortNp_perm (l.map g)).trans ?_
    rw [hlen]
    exact (argsortNp_perm l).symm
  have hsorted : (argsortNp (l.map g)).Sorted (rIdx l) := by
    refine (argsortNp_sorted (l.map g)).imp_of_mem ?_
    intro a b ha hb hab
    have ha' : a < l.length := by
      have := argsortNp_mem ha
      rwa [hlen] at this
    have hb' : b < l.length := by
      have := argsortNp_mem hb
      rwa [hlen] at this
    rcases hab with h | ⟨he, hle⟩
    · rw [getD_map_of_lt g ha', getD_map_of_lt g hb'] at h
      exact Or.inl ((hlt _ _).mp h)
    · rw [getD_map_of_lt g ha', getD_map_of_lt g hb'] at he
      exact Or.inr ⟨(hinj _ _).mp he, hle⟩
  exact List.eq_of_perm_of_sorted hperm hsorted (argsortNp_sorted l)

lemma zipWith_replicate_const (f : ℚ → ℚ → ℚ) (c : ℚ) :
    ∀ (l : List ℚ), List.zipWith f l (List.replicate l.length c) = l.map (fun a => f a c)
  | [] => rfl
  | a :: t => by
    simp only [List.length_cons, List.replicate_succ, List.zipWith_cons_cons, List.map_cons]
    rw [zipWith_replicate_const f c t]

lemma countP_zip_fst (c : ℚ → Bool) :
    ∀ (l l' : List ℚ), l'.length = l.length →
      (l.zip l').countP (fun p => c p.1) = l.countP c
  | [], _, _ => by simp
  | a :: t, [], h => by simp at h
  | a :: t, b :: t', h => by
    simp only [List.zip_cons_cons, List.countP_cons]
    rw [countP_zip_fst c t t' (by simpa using h)]

lemma matches_eq_specCoveredMatches (marginals ground : List ℚ)
    (hg : ∀ g ∈ ground, g = -1 ∨ g = 1) :
    ((marginals.map (fun m => npSign (2 * (m - 1 / 2)))).zip ground).countP
        (fun p => decide (p.1 = p.2))
      = specCoveredMatches marginals ground := by
  rw [specCoveredMatches, List.zip_map_left, List.countP_map]
  refine List.countP_congr ?_
  rintro ⟨m, g⟩ hmem
  have hgm : g ∈ ground := (List.of_mem_zip hmem).2
  simp only [Function.comp, Prod.map, id_eq, decide_eq_true_eq, decide_eq_decide]
  constructor
  · intro h
    refine ⟨?_, h⟩
    intro hhalf
    have h0 : npSign (2 * (m - 1 / 2)) = 0 := by
      rw [npSign_zero_iff]
      rw [hhalf]
      ring
    rw [h0] at h
    rcases hg g hgm with hgv | hgv <;> rw [hgv] at h <;> exact absurd h (by norm_num)
  · exact fun h => h.2

lemma union_eq_right {l l' : List ℕ} (h : ∀ a ∈ l, a ∈ l') : l ∪ l' = l' := by
  induction l with
  | nil => rfl
  | cons a t ih =>
    have := List.cons_union a t l'
    rw [this, ih (fun x hx => h x (List.mem_cons_of_mem _ hx))]
    exact List.insert_of_mem (h a (List.mem_cons_self _ _))

lemma dedup_append_self (l : List ℕ) : (l ++ l).dedup = l.dedup := by
  rw [List.dedup_append]
  exact union_eq_right (fun a ha => List.mem_dedup.mpr ha)

lemma apply_heuristics_length {α : Type} (b : ℚ) (hs : List (α → ℚ)) (X : List α)
    (beta_opt : List ℚ) : (apply_heuristics b hs X beta_opt).length = hs.length := by
  simp [apply_heuristics]

lemma reliabilityScores_length (f1_micro : List ℚ → List ℚ → Option ℚ) (vg : List ℚ)
    (L : List (List ℚ)) : (reliabilityScores f1_micro vg L).length = L.length := by
  simp [reliabilityScores]

lemma diversityScores_length_eq (vfLVal : Option (List (List ℚ))) (numRows : ℕ)
    (L : List (List ℚ)) : (diversityScores vfLVal numRows L L.length).length = L.length := by
  cases vfLVal <;> simp [diversityScores, calculate_jaccard_distance]

lemma combinedScores_length {α : Type} (fb : List (α → ℚ) → List α → List ℚ → List ℚ)
    (f1 : List ℚ → List ℚ → Option ℚ) (b : ℚ) (valX : List α) (vg : List ℚ)
    (vfLVal : Option (List (List ℚ))) (hs : List (α → ℚ)) :
    (combinedScores fb f1 b valX vg vfLVal hs).length = hs.length := by
  have hL : (candidateVotes fb b valX vg hs).length = hs.length :=
    apply_heuristics_length b hs valX _
  have hacc := reliabilityScores_length f1 vg (candidateVotes fb b valX vg hs)
  unfold combinedScores
  rw [List.length_zipWith, hacc]
  rw [diversityScores_length_eq, hL, min_self]

lemma labels_cutoff_mem (b beta p : ℚ) :
    labels_cutoff b beta p = -1 ∨ labels_cutoff b beta p = 0 ∨ labels_cutoff b beta p = 1 := by
  rw [labels_cutoff_eq_voteSpec]
  unfold voteSpec
  split
  · exact Or.inr (Or.inr rfl)
  · split
    · exact Or.inl rfl
    · exact Or.inr (Or.inl rfl)

lemma labels_cutoff_beta_zero (p : ℚ) : labels_cutoff (1 / 2) 0 p ≠ 0 := by
  rw [labels_cutoff_eq_voteSpec]
  unfold voteSpec
  rcases le_or_lt (1 / 2 + 0 : ℚ) p with h | h
  · rw [if_pos h]
    norm_num
  · rw [if_neg (not_le.mpr h), if_pos (by linarith)]
    norm_num

/-! ### Claim theorems -/

/-- C1 (counterexample).  The claim states that a row whose probability `p`
satisfies `p ≤ b - beta[i]` receives vote -1.  At `b = 1/2`, `beta = [0]` and a
heuristic with probability `p = 1/2` we have `p ≤ b - beta[0]` (third conjunct: the
beta entry is a valid member of [0, 0.5]), yet `apply_heuristics` returns vote +1,
not -1, because the `>= b + beta` write runs after the `<= b - beta` write. -/
theorem apply_heuristics_overlap_counterexample :
    apply_heuristics (1 / 2) [fun _ : Unit => (1 / 2 : ℚ)] [()] [0] = [[1]] ∧
    ((1 : ℚ) / 2 ≤ 1 / 2 - 0) ∧ ((0 : ℚ) ≤ 0 ∧ (0 : ℚ) ≤ 1 / 2) ∧ ((1 : ℚ) ≠ -1) := by
  norm_num [apply_heuristics, labels_cutoff, List.enum]

/-- C1 (amended).  For every beta vector with entries in [0, 0.5] matching the
heuristic count, `apply_heuristics` yields one column per heuristic, one entry per
row, entries only in {-1, 0, +1}, and each vote is +1 when `p ≥ b + beta[i]`,
-1 when `p ≤ b - beta[i]` but not `p ≥ b + beta[i]` (the +1 write takes
precedence, which matters only at `beta[i] = 0`, `p = b`), and 0 otherwise. -/
theorem apply_heuristics_votes {α : Type} (b : ℚ) (hs : List (α → ℚ)) (X : List α)
    (beta_opt : List ℚ) (hlen : beta_opt.length = hs.length)
    (hbeta : ∀ x ∈ beta_opt, 0 ≤ x ∧ x ≤ 1 / 2) :
    (apply_heuristics b hs X beta_opt).length = hs.length ∧
    (∀ col ∈ apply_heuristics b hs X beta_opt, col.length = X.length) ∧
    apply_heuristics b hs X beta_opt
      = hs.enum.map (fun ih => X.map (fun x => voteSpec b (beta_opt.getD ih.1 0) (ih.2 x))) ∧
    ∀ col ∈ apply_heuristics b hs X beta_opt, ∀ v ∈ col, v = -1 ∨ v = 0 ∨ v = 1 := by
  refine ⟨apply_heuristics_length b hs X beta_opt, ?_, ?_, ?_⟩
  · intro col hcol
    simp only [apply_heuristics, List.mem_map] at hcol
    obtain ⟨ih, _, hcol⟩ := hcol
    rw [← hcol]
    simp
  · simp [apply_heuristics, labels_cutoff_eq_voteSpec]
  · intro col hcol v hv
    simp only [apply_heuristics, List.mem_map] at hcol
    obtain ⟨ih, _, hcol⟩ := hcol
    rw [← hcol] at hv
    simp only [List.mem_map] at hv
    obtain ⟨q, _, hq⟩ := hv
    rw [← hq]
    exact labels_cutoff_mem b _ _

/-- C1 (witness).  The amended characterisation applied at `b = 1/2`, one
heuristic of constant probability 3/4, one row, beta vector [1/4]. -/
theorem apply_heuristics_votes_witness :
    apply_heuristics (1 / 2) [fun _ : Unit => (3 / 4 : ℚ)] [()] [(1 / 4 : ℚ)]
      = [fun _ : Unit => (3 / 4 : ℚ)].enum.map
          (fun ih => [()].map (fun x => voteSpec (1 / 2) ([(1 / 4 : ℚ)].getD ih.1 0) (ih.2 x))) :=
  (apply_heuristics_votes (1 / 2) [fun _ : Unit => (3 / 4 : ℚ)] [()] [(1 / 4 : ℚ)] rfl
    (by norm_num)).2.2.1

/-- C5 (counterexample).  The claim states that with `beta = 0.5` and `b = 0.5`
every probability in [0, 1] receives a non-abstain vote.  With probability 1/4
(in [0, 1], second conjunct) the thresholds are `p ≤ 0` and `p ≥ 1`, so the vote
is 0: the heuristic abstains. -/
theorem apply_heuristics_beta_half_counterexample :
    apply_heuristics (1 / 2) [fun _ : Unit => (1 / 4 : ℚ)] [()] [(1 / 2 : ℚ)] = [[0]] ∧
    (0 ≤ (1 / 4 : ℚ) ∧ (1 / 4 : ℚ) ≤ 1) := by
  norm_num [apply_heuristics, labels_cutoff, List.enum]

/-- C5 (amended).  It is `beta = 0` (not `beta = 0.5`) with `b = 0.5` that makes
every probability receive a non-abstain vote: each vote is -1 or +1, never 0. -/
theorem apply_heuristics_beta_zero_no_abstain {α : Type} (hs : List (α → ℚ)) (X : List α)
    (beta_opt : List ℚ) (hbeta : ∀ x ∈ beta_opt, x = 0) :
    ∀ col ∈ apply_heuristics (1 / 2) hs X beta_opt, ∀ v ∈ col, v ≠ 0 := by
  intro col hcol v hv
  simp only [apply_heuristics, List.mem_map] at hcol
  obtain ⟨ih, _, hcol⟩ := hcol
  rw [← hcol] at hv
  simp only [List.mem_map] at hv
  obtain ⟨q, _, hq⟩ := hv
  rw [← hq]
  have hb : beta_opt.getD ih.1 0 = 0 := by
    rcases lt_or_le ih.1 beta_opt.length with h | h
    · have hmem : beta_opt.getD ih.1 0 ∈ beta_opt := by
        rw [List.getD_eq_getElem beta_opt 0 h]
        exact List.getElem_mem h
      exact hbeta _ hmem
    · exact List.getD_eq_default beta_opt 0 h
  rw [hb]
  exact labels_cutoff_beta_zero _

/-- C5 (witness).  The amended claim applied at one heuristic of constant
probability 1/4, one row, beta vector [0]: no vote is 0. -/
theorem apply_heuristics_beta_zero_no_abstain_witness :
    (∀ x ∈ [(0 : ℚ)], x = 0) ∧
    ∀ col ∈ apply_heuristics (1 / 2) [fun _ : Unit => (1 / 4 : ℚ)] [()] [(0 : ℚ)],
      ∀ v ∈ col, v ≠ 0 :=
  ⟨by norm_num, apply_heuristics_beta_zero_no_abstain _ _ _ (by norm_num)⟩

/-- C4 (counterexample).  Two candidates with identical combined score 1 (second
conjunct exhibits the tie); with `keep = 1` the code selects index 1, the
later-generated candidate, whereas the claimed stable descending sort (earlier
preferred) would select index 0: `np.argsort` sorts ascending with ties in
generation order, and the `[::-1]` reversal puts later-generated tied candidates
first. -/
theorem prune_tiebreak_counterexample :
    prune_heuristics (fun _ _ _ => [(0 : ℚ), 0]) (fun _ _ => some 1) (1 / 2) [()] [(1 : ℚ)]
        none [fun _ => (1 : ℚ), fun _ => (1 : ℚ)] 1 = [1] ∧
    combinedScores (fun _ _ _ => [(0 : ℚ), 0]) (fun _ _ => some 1) (1 / 2) [()] [(1 : ℚ)]
        none [fun _ => (1 : ℚ), fun _ => (1 : ℚ)] = [1, 1] := by
  norm_num [prune_heuristics, pruneSelect, argsortNp, combinedScores, candidateVotes,
    reliabilityScores, diversityScores, apply_heuristics, labels_cutoff, nanToNum,
    List.insertionSort, List.orderedInsert, rIdx, List.enum, List.replicate, List.zipWith]

/-- C4 (amended).  The selection order of `prune_heuristics` is descending in
combined score, and whenever two selected candidates have equal combined score the
later-generated one comes first (reverse generation order), the opposite of the
claimed stable tie-break. -/
theorem prune_tiebreak_order {α : Type} (fb : List (α → ℚ) → List α → List ℚ → List ℚ)
    (f1 : List ℚ → List ℚ → Option ℚ) (b : ℚ) (valX : List α) (vg : List ℚ)
    (vfLVal : Option (List (List ℚ))) (hs : List (α → ℚ)) (keep : ℕ) :
    (prune_heuristics fb f1 b valX vg vfLVal hs keep).Pairwise
      (fun i j =>
        (combinedScores fb f1 b valX vg vfLVal hs).getD j 0
            < (combinedScores fb f1 b valX vg vfLVal hs).getD i 0
        ∨ ((combinedScores fb f1 b valX vg vfLVal hs).getD i 0
              = (combinedScores fb f1 b valX vg vfLVal hs).getD j 0 ∧ j < i)) :=
  pruneSelect_pairwise (combinedScores fb f1 b valX vg vfLVal hs) keep

/-- C6 (counterexample).  First round (`vf = None`), two candidates with equal
reliability 1/2 (first conjunct); `keep = 2` returns [1, 0], whereas descending
reliability order with stable ties would be [0, 1]: ties go to the
later-generated candidate, as in C4. -/
theorem first_round_tie_counterexample :
    reliabilityScores (fun _ _ => some (1 / 2)) [(1 : ℚ)]
        (candidateVotes (fun _ _ _ => [(0 : ℚ), 0]) (1 / 2) [()] [(1 : ℚ)]
          [fun _ => (1 : ℚ), fun _ => (1 : ℚ)]) = [1 / 2, 1 / 2] ∧
    prune_heuristics (fun _ _ _ => [(0 : ℚ), 0]) (fun _ _ => some (1 / 2)) (1 / 2) [()]
        [(1 : ℚ)] none [fun _ => (1 : ℚ), fun _ => (1 : ℚ)] 2 = [1, 0] := by
  norm_num [prune_heuristics, pruneSelect, argsortNp, combinedScores, candidateVotes,
    reliabilityScores, diversityScores, apply_heuristics, labels_cutoff, nanToNum,
    List.insertionSort, List.orderedInsert, rIdx, List.enum, List.replicate, List.zipWith]

/-- C6 (amended).  On the first round (`vf = None`) every candidate gets diversity
score 1, each combined score is `0.5 * reliability + 0.5 * 1`, and the selection
equals the one computed from the reliability scores alone (same descending order,
same reverse-generation-order tie-break as C4). -/
theorem first_round_diversity_one {α : Type} (fb : List (α → ℚ) → List α → List ℚ → List ℚ)
    (f1 : List ℚ → List ℚ → Option ℚ) (b : ℚ) (valX : List α) (vg : List ℚ)
    (hs : List (α → ℚ)) (keep : ℕ) :
    diversityScores none valX.length (candidateVotes fb b valX vg hs)
        (reliabilityScores f1 vg (candidateVotes fb b valX vg hs)).length
      = List.replicate (reliabilityScores f1 vg (candidateVotes fb b valX vg hs)).length 1 ∧
    combinedScores fb f1 b valX vg none hs
      = (reliabilityScores f1 vg (candidateVotes fb b valX vg hs)).map
          (fun a => (1 / 2 : ℚ) * a + (1 / 2 : ℚ) * 1) ∧
    prune_heuristics fb f1 b valX vg none hs keep
      = pruneSelect (reliabilityScores f1 vg (candidateVotes fb b valX vg hs)) keep := by
  have hcomb : combinedScores fb f1 b valX vg none hs
      = (reliabilityScores f1 vg (candidateVotes fb b valX vg hs)).map
          (fun a => (1 / 2 : ℚ) * a + (1 / 2 : ℚ) * 1) := by
    simp only [combinedScores, diversityScores]
    exact zipWith_replicate_const _ 1 _
  refine ⟨rfl, hcomb, ?_⟩
  show pruneSelect (combinedScores fb f1 b valX vg none hs) keep
      = pruneSelect (reliabilityScores f1 vg (candidateVotes fb b valX vg hs)) keep
  rw [hcomb]
  unfold pruneSelect
  rw [argsortNp_map (fun a => (1 / 2 : ℚ) * a + (1 / 2 : ℚ) * 1)
    (fun a c => ⟨fun h => by linarith, fun h => by linarith⟩)
    (fun a c => ⟨fun h => by linarith, fun h => by rw [h]⟩)]

/-- C8.  `prune_heuristics` returns at most `keep` indices; when the candidate
pool has at least `keep` members it returns exactly `keep` pairwise-distinct
indices, each a valid index into the pool. -/
theorem prune_keep_count {α : Type} (fb : List (α → ℚ) → List α → List ℚ → List ℚ)
    (f1 : List ℚ → List ℚ → Option ℚ) (b : ℚ) (valX : List α) (vg : List ℚ)
    (vfLVal : Option (List (List ℚ))) (hs : List (α → ℚ)) (keep : ℕ) (hkeep : 1 ≤ keep) :
    (prune_heuristics fb f1 b valX vg vfLVal hs keep).length ≤ keep ∧
    (keep ≤ hs.length →
      (prune_heuristics fb f1 b valX vg vfLVal hs keep).length = keep ∧
      (prune_heuristics fb f1 b valX vg vfLVal hs keep).Nodup ∧
      ∀ i ∈ prune_heuristics fb f1 b valX vg vfLVal hs keep, i < hs.length) := by
  have hclen : (combinedScores fb f1 b valX vg vfLVal hs).length = hs.length :=
    combinedScores_length fb f1 b valX vg vfLVal hs
  have hplen : (prune_heuristics fb f1 b valX vg vfLVal hs keep).length = min keep hs.length := by
    show (pruneSelect (combinedScores fb f1 b valX vg vfLVal hs) keep).length = min keep hs.length
    rw [pruneSelect_length, hclen]
  refine ⟨by rw [hplen]; exact min_le_left _ _, fun hk => ⟨?_, ?_, ?_⟩⟩
  · rw [hplen]
    exact min_eq_left hk
  · exact pruneSelect_nodup _ _
  · intro i hi
    have hmem : i < (combinedScores fb f1 b valX vg vfLVal hs).length := pruneSelect_mem hi
    rwa [hclen] at hmem

/-- C8 (witness).  One candidate, `keep = 1`. -/
theorem prune_keep_count_witness :
    (1 : ℕ) ≤ 1 ∧
    (prune_heuristics (fun _ _ _ => [(0 : ℚ)]) (fun _ _ => some 1) (1 / 2) [()] [(1 : ℚ)]
        none [fun _ : Unit => (1 : ℚ)] 1).length ≤ 1 :=
  ⟨le_refl 1,
    (prune_keep_count (fun _ _ _ => [(0 : ℚ)]) (fun _ _ => some 1) (1 / 2) [()] [(1 : ℚ)]
      none [fun _ : Unit => (1 : ℚ)] 1 (le_refl 1)).1⟩

/-- C10.  A NaN reliability score (`none` from the external micro-F1) is replaced
by 0 locally: the reliability scores, and hence the selection, are identical to
those computed from the NaN-free score function, and the selection always
completes with `min keep n` indices — the NaN never reaches the combined scores
or the result. -/
theorem prune_nan_resilient {α : Type} (fb : List (α → ℚ) → List α → List ℚ → List ℚ)
    (f1 : List ℚ → List ℚ → Option ℚ) (b : ℚ) (valX : List α) (vg : List ℚ)
    (vfLVal : Option (List (List ℚ))) (hs : List (α → ℚ)) (keep : ℕ) :
    nanToNum none = 0 ∧
    reliabilityScores f1 vg (candidateVotes fb b valX vg hs)
      = reliabilityScores (fun g c => some (nanToNum (f1 g c))) vg
          (candidateVotes fb b valX vg hs) ∧
    prune_heuristics fb f1 b valX vg vfLVal hs keep
      = prune_heuristics fb (fun g c => some (nanToNum (f1 g c))) b valX vg vfLVal hs keep ∧
    (prune_heuristics fb f1 b valX vg vfLVal hs keep).length = min keep hs.length := by
  have hrel : ∀ (L : List (List ℚ)), reliabilityScores f1 vg L
      = reliabilityScores (fun g c => some (nanToNum (f1 g c))) vg L := by
    intro L
    unfold reliabilityScores
    rw [List.map_map, List.map_map]
    rfl
  refine ⟨rfl, hrel _, ?_, ?_⟩
  · simp only [prune_heuristics, combinedScores]
    rw [hrel]
  · show (pruneSelect (combinedScores fb f1 b valX vg vfLVal hs) keep).length = min keep hs.length
    rw [pruneSelect_length, combinedScores_length]

lemma calculate_accuracy_eq_of_pos (marginals ground : List ℚ) (b : ℚ)
    (h : marginals.countP (fun m => decide (m ≠ 1 / 2)) ≠ 0) :
    calculate_accuracy marginals b ground
      = some ((((marginals.map (fun m => npSign (2 * (m - 1 / 2)))).zip ground).countP
            (fun p => decide (p.1 = p.2)) : ℚ)
          / (marginals.countP (fun m => decide (m ≠ 1 / 2)) : ℚ)) := by
  simp only [calculate_accuracy]
  rw [if_neg h]

lemma calculate_coverage_eq (marginals ground : List ℚ) (b : ℚ) (h : marginals ≠ []) :
    calculate_coverage marginals b ground
      = some ((marginals.countP (fun m => decide (m ≠ 1 / 2)) : ℚ) / (marginals.length : ℚ)) := by
  simp only [calculate_coverage, List.length_map]
  rw [if_neg (fun h0 => h (List.length_eq_zero.mp h0))]

/-- C2.  Under the precondition that ground-truth labels are -1 or +1: a point is
covered iff its marginal differs from 0.5 exactly; `calculate_accuracy` equals the
count of covered points whose `sign(2 * (marginal - 0.5))` matches the label,
divided by the covered count (so accuracy is computed over covered points only,
and is the NaN `none` when nothing is covered); `calculate_coverage` is the
covered count over the total count; and `evaluate` returns the four values in the
order validation accuracy, train accuracy, validation coverage, train coverage. -/
theorem evaluate_accuracy_over_covered (marginals ground : List ℚ) (b : ℚ)
    (hlen : ground.length = marginals.length) (hg : ∀ g ∈ ground, g = -1 ∨ g = 1) :
    calculate_accuracy marginals b ground
      = (if specCoveredCount marginals = 0 then none
         else some ((specCoveredMatches marginals ground : ℚ) / (specCoveredCount marginals : ℚ))) ∧
    calculate_coverage marginals b ground
      = (if marginals.length = 0 then none
         else some ((specCoveredCount marginals : ℚ) / (marginals.length : ℚ))) ∧
    ∀ (vm tm vg tg : List ℚ),
      evaluate vm tm b vg tg
        = (calculate_accuracy vm b vg, calculate_accuracy tm b tg,
           calculate_coverage vm b vg, calculate_coverage tm b tg) := by
  refine ⟨?_, ?_, fun _ _ _ _ => rfl⟩
  · simp only [calculate_accuracy, specCoveredCount]
    rw [matches_eq_specCoveredMatches marginals ground hg]
  · simp only [calculate_coverage, specCoveredCount, List.length_map]

/-- C2 (witness).  Marginals [3/4, 1/2] against labels [1, 1]: one covered point,
one match, accuracy 1 over the single covered point. -/
theorem evaluate_accuracy_over_covered_witness :
    calculate_accuracy [(3 / 4 : ℚ), 1 / 2] (1 / 2) [1, 1]
      = (if specCoveredCount [(3 / 4 : ℚ), 1 / 2] = 0 then none
         else some ((specCoveredMatches [(3 / 4 : ℚ), 1 / 2] [1, 1] : ℚ)
            / (specCoveredCount [(3 / 4 : ℚ), 1 / 2] : ℚ))) :=
  (evaluate_accuracy_over_covered [(3 / 4 : ℚ), 1 / 2] [1, 1] (1 / 2) rfl (by norm_num)).1

/-- C3 (counterexample).  When every marginal equals exactly 0.5 (zero covered
points) the accuracy division is 0 / float(0): NaN in the Python, `none` here —
there is no accuracy value in [0, 1], refuting the claim for the all-0.5 vector. -/
theorem calculate_accuracy_all_abstain_counterexample :
    calculate_accuracy [(1 / 2 : ℚ)] (1 / 2) [1] = none := by
  norm_num [calculate_accuracy]

/-- C3 (amended).  For marginals in [0, 1] and labels in {-1, +1}: whenever at
least one marginal differs from 0.5, accuracy is defined and lies in [0, 1]; for a
nonempty marginals vector coverage is defined and lies in [0, 1]; and coverage
equals 1 when no marginal equals 0.5.  With every marginal exactly 0.5 the
accuracy is undefined (NaN / division by zero), as the counterexample shows. -/
theorem evaluate_bounds (marginals ground : List ℚ) (b : ℚ)
    (hm : ∀ m ∈ marginals, 0 ≤ m ∧ m ≤ 1)
    (hg : ∀ g ∈ ground, g = -1 ∨ g = 1)
    (hlen : ground.length = marginals.length) :
    ((∃ m ∈ marginals, m ≠ 1 / 2) →
      ∃ a, calculate_accuracy marginals b ground = some a ∧ 0 ≤ a ∧ a ≤ 1) ∧
    (marginals ≠ [] →
      ∃ c, calculate_coverage marginals b ground = some c ∧ 0 ≤ c ∧ c ≤ 1) ∧
    ((marginals ≠ [] ∧ ∀ m ∈ marginals, m ≠ 1 / 2) →
      calculate_coverage marginals b ground = some 1) := by
  refine ⟨?_, ?_, ?_⟩
  · rintro ⟨m0, hm0, hm0ne⟩
    have htot : 0 < marginals.countP (fun m => decide (m ≠ 1 / 2)) :=
      List.countP_pos_iff.mpr ⟨m0, hm0, by simpa using hm0ne⟩
    have hmatch_le : ((marginals.map (fun m => npSign (2 * (m - 1 / 2)))).zip ground).countP
          (fun p => decide (p.1 = p.2))
        ≤ marginals.countP (fun m => decide (m ≠ 1 / 2)) := by
      rw [matches_eq_specCoveredMatches marginals ground hg, specCoveredMatches]
      calc (marginals.zip ground).countP
            (fun p => decide (p.1 ≠ 1 / 2 ∧ npSign (2 * (p.1 - 1 / 2)) = p.2))
          ≤ (marginals.zip ground).countP (fun p => decide (p.1 ≠ 1 / 2)) := by
            refine List.countP_mono_left ?_
            intro x _ hx
            simp only [decide_eq_true_eq] at hx ⊢
            exact hx.1
        _ = marginals.countP (fun m => decide (m ≠ 1 / 2)) :=
            countP_zip_fst (fun m => decide (m ≠ 1 / 2)) marginals ground hlen
    rw [calculate_accuracy_eq_of_pos marginals ground b htot.ne']
    refine ⟨_, rfl, ?_, ?_⟩
    · positivity
    · rw [div_le_one (by exact_mod_cast htot)]
      exact_mod_cast hmatch_le
  · intro hne
    have hlen0 : 0 < marginals.length := List.length_pos.mpr hne
    rw [calculate_coverage_eq marginals ground b hne]
    refine ⟨_, rfl, ?_, ?_⟩
    · positivity
    · rw [div_le_one (by exact_mod_cast hlen0)]
      exact_mod_cast List.countP_le_length _
  · rintro ⟨hne, hall⟩
    rw [calculate_coverage_eq marginals ground b hne]
    have hfull : marginals.countP (fun m => decide (m ≠ 1 / 2)) = marginals.length :=
      List.countP_eq_length.mpr (fun a ha => by simpa using hall a ha)
    rw [hfull, div_self (by exact_mod_cast (List.length_pos.mpr hne).ne')]

/-- C3 (witness).  Marginals [3/4, 1/2] with labels [1, 1]: accuracy is defined
and in [0, 1]; coverage is defined and in [0, 1]. -/
theorem evaluate_bounds_witness :
    (∃ a, calculate_accuracy [(3 / 4 : ℚ), 1 / 2] (1 / 2) [1, 1] = some a ∧ 0 ≤ a ∧ a ≤ 1) ∧
    (∃ c, calculate_coverage [(3 / 4 : ℚ), 1 / 2] (1 / 2) [1, 1] = some c ∧ 0 ≤ c ∧ c ≤ 1) :=
  ⟨(evaluate_bounds [(3 / 4 : ℚ), 1 / 2] [1, 1] (1 / 2) (by norm_num) (by norm_num) rfl).1
      ⟨3 / 4, by norm_num⟩,
    (evaluate_bounds [(3 / 4 : ℚ), 1 / 2] [1, 1] (1 / 2) (by norm_num) (by norm_num) rfl).2.1
      (List.cons_ne_nil _ _)⟩

lemma run_synthesizer_hf_append {α F : Type} (b : ℚ) (valX trainX : List α) (vg : List ℚ)
    (s : GenState α F) (r : RoundInput α F) :
    (run_synthesizer b valX trainX vg s r).hf
      = s.hf ++ (prune_heuristics r.find_optimal_beta r.f1_micro b valX vg r.vfLVal
          r.candidates r.keep).filterMap (fun i => r.candidates.get? i) := rfl

lemma run_synthesizer_fc_append {α F : Type} (b : ℚ) (valX trainX : List α) (vg : List ℚ)
    (s : GenState α F) (r : RoundInput α F) :
    (run_synthesizer b valX trainX vg s r).feat_combos
      = s.feat_combos ++ (prune_heuristics r.find_optimal_beta r.f1_micro b valX vg r.vfLVal
          r.candidates r.keep).filterMap (fun i => r.candCombos.get? i) := rfl

/-- C7.  Round orchestration is monotonic: after one more `run_synthesizer` round
the cumulative heuristic list and feature-combination list extend the previous
ones (survivors are appended, earlier rounds' picks are never removed or
replaced), so their lengths never shrink. -/
theorem run_synthesizer_monotone {α F : Type} (b : ℚ) (valX trainX : List α)
    (vg : List ℚ) (s : GenState α F) (rs : List (RoundInput α F)) (k : ℕ) :
    (∃ extra, (runRounds b valX trainX vg s (rs.take (k + 1))).hf
        = (runRounds b valX trainX vg s (rs.take k)).hf ++ extra) ∧
    (∃ extra, (runRounds b valX trainX vg s (rs.take (k + 1))).feat_combos
        = (runRounds b valX trainX vg s (rs.take k)).feat_combos ++ extra) ∧
    (runRounds b valX trainX vg s (rs.take k)).hf.length
      ≤ (runRounds b valX trainX vg s (rs.take (k + 1))).hf.length ∧
    (runRounds b valX trainX vg s (rs.take k)).feat_combos.length
      ≤ (runRounds b valX trainX vg s (rs.take (k + 1))).feat_combos.length := by
  have hfold : runRounds b valX trainX vg s (rs.take (k + 1))
      = (rs[k]?.toList).foldl (run_synthesizer b valX trainX vg)
          (runRounds b valX trainX vg s (rs.take k)) := by
    show List.foldl (run_synthesizer b valX trainX vg) s (rs.take (k + 1))
        = List.foldl (run_synthesizer b valX trainX vg)
            (runRounds b valX trainX vg s (rs.take k)) rs[k]?.toList
    rw [List.take_succ, List.foldl_append]
    rfl
  rw [hfold]
  cases rs[k]? with
  | none => exact ⟨⟨[], by simp⟩, ⟨[], by simp⟩, le_refl _, le_refl _⟩
  | some r =>
    simp only [Option.toList, List.foldl_cons, List.foldl_nil]
    refine ⟨⟨_, run_synthesizer_hf_append b valX trainX vg _ r⟩,
      ⟨_, run_synthesizer_fc_append b valX trainX vg _ r⟩, ?_, ?_⟩
    · rw [run_synthesizer_hf_append b valX trainX vg _ r, List.length_append]
      exact Nat.le_add_right _ _
    · rw [run_synthesizer_fc_append b valX trainX vg _ r, List.length_append]
      exact Nat.le_add_right _ _

/-- C9.  `find_feedback` computes the margin `gamma_optimizer m = 0.5 - 1 / m^1.5`
over the `m ≥ 1` cumulatively kept heuristics, asks the aggregator for vague
points at that margin, and stores the deduplicated union of that set with itself;
the result has no duplicates, and whenever the aggregator returns valid
validation row indices every feedback index is a valid validation row index. -/
theorem find_feedback_valid (m : ℕ) (find_vague_points : ℚ → ℝ → List ℕ) (b : ℚ) (n : ℕ)
    (hm : 1 ≤ m)
    (hvalid : ∀ i ∈ find_vague_points b (gamma_optimizer m), i < n) :
    find_feedback m find_vague_points b
      = (find_vague_points b (gamma_optimizer m)).dedup ∧
    (find_feedback m find_vague_points b).Nodup ∧
    ∀ i ∈ find_feedback m find_vague_points b, i < n := by
  have heq : find_feedback m find_vague_points b
      = (find_vague_points b (gamma_optimizer m)).dedup :=
    dedup_append_self (find_vague_points b (gamma_optimizer m))
  refine ⟨heq, ?_, ?_⟩
  · rw [heq]
    exact List.nodup_dedup _
  · intro i hi
    rw [heq] at hi
    exact hvalid i (List.mem_dedup.mp hi)

/-- C9 (witness).  One kept heuristic, an aggregator returning rows [0, 2, 2] of a
3-row validation set: the feedback set is duplicate-free and within bounds. -/
theorem find_feedback_valid_witness :
    (1 : ℕ) ≤ 1 ∧
    ((find_feedback 1 (fun _ _ => [0, 2, 2]) (1 / 2)).Nodup ∧
      ∀ i ∈ find_feedback 1 (fun _ _ => [0, 2, 2]) (1 / 2), i < 3) :=
  ⟨le_refl 1,
    (find_feedback_valid 1 (fun _ _ => [0, 2, 2]) (1 / 2) 3 (le_refl 1)
      (by intro i hi; simp at hi; omega)).2⟩
